import Mathlib

/-!
Shallow embedding of the order-matching engine of `src/main.cpp`
(`struct Order`, `class ExchangeSimulator`): data model, order placement
with per-side price sorting, and the matching loop, together with proofs
of the book invariants and functional properties.

Modelling conventions:
* C++ `double price` is modelled as `Int`.  The engine only ever *compares*
  prices (never adds or multiplies them), so any linearly ordered type is a
  faithful model of the comparisons performed; `Int` keeps everything
  kernel-computable.
* C++ `int quantity` is modelled as `Int` (the source does not validate
  signs, so negative quantities are representable there too).
* The `std::vector` members become `List`s; `std::sort` on a side becomes an
  insertion sort of the whole list with the same comparator semantics
  (the result is ordered so that no element strictly precedes, under the
  comparator, one placed before it).
* The `std::cout` trade lines become an explicit list of `Trade` values
  returned by the matching pass, in emission order.
* The `while` loop of `matchOrders` is realised by the bounded iterator
  `matchOrdersGo`: every iteration that trades erases at least one order
  (the executed quantity equals the front buy or the front sell quantity,
  and that order's quantity reaches zero and is erased), so
  `buyOrders.length + sellOrders.length` iterations always suffice.
  `matchOrdersGo_fuel_irrelevant` proves the bound is never hit, and the
  unfolding lemmas below recover the loop equations exactly.
-/

/-- Mirror of `struct Order` in `src/main.cpp`. -/
structure Order where
  id : Int
  isBuy : Bool
  price : Int
  quantity : Int
deriving DecidableEq, Repr

/-- One `"Trade executed"` line of `matchOrders`: executed quantity and price. -/
structure Trade where
  price : Int
  quantity : Int
deriving DecidableEq, Repr

/-- State of `class ExchangeSimulator`: the two books and the id counter. -/
structure ExchangeSimulator where
  buyOrders : List Order
  sellOrders : List Order
  orderIdCounter : Int
deriving DecidableEq, Repr

/-- The comparator `a.price > b.price` used for `buyOrders`, in its
sorted-order form: `a` may precede `b` iff `¬(b.price > a.price)`. -/
def bidLe (a b : Order) : Bool := decide (b.price ≤ a.price)

/-- The comparator `a.price < b.price` used for `sellOrders`, in its
sorted-order form: `a` may precede `b` iff `¬(b.price < a.price)`. -/
def askLe (a b : Order) : Bool := decide (a.price ≤ b.price)

/-- Insert one element into a list so that it lands before the first element
it may not follow. -/
def insertSorted (le : Order → Order → Bool) (o : Order) : List Order → List Order
  | [] => [o]
  | x :: xs => if le o x then o :: x :: xs else x :: insertSorted le o xs

/-- Model of `std::sort` on a side: sort the whole list by the comparator. -/
def sortOrders (le : Order → Order → Bool) : List Order → List Order
  | [] => []
  | x :: xs => insertSorted le x (sortOrders le xs)

/-- Bounded realisation of the `while` loop of
`ExchangeSimulator::matchOrders`.  Returns the emitted trades in order
together with the remaining buy and sell books. -/
def matchOrdersGo : Nat → List Order → List Order → List Trade × List Order × List Order
  | _, [], sells => ([], [], sells)
  | _, b :: bs, [] => ([], b :: bs, [])
  | 0, b :: bs, s :: ss => ([], b :: bs, s :: ss)
  | fuel + 1, b :: bs, s :: ss =>
    if b.price ≥ s.price then
      let q := min b.quantity s.quantity
      let buys' := if b.quantity - q = 0 then bs
        else ⟨b.id, b.isBuy, b.price, b.quantity - q⟩ :: bs
      let sells' := if s.quantity - q = 0 then ss
        else ⟨s.id, s.isBuy, s.price, s.quantity - q⟩ :: ss
      let r := matchOrdersGo fuel buys' sells'
      (⟨s.price, q⟩ :: r.1, r.2)
    else ([], b :: bs, s :: ss)

/-- `ExchangeSimulator::matchOrders`: run the matching loop to completion
(the fuel `buys.length + sells.length` always suffices, see
`matchOrdersGo_fuel_irrelevant`). -/
def matchOrders (buys sells : List Order) : List Trade × List Order × List Order :=
  matchOrdersGo (buys.length + sells.length) buys sells

/-- The insertion half of `ExchangeSimulator::placeOrder` (lines 51–60):
build the order from the current counter, push it onto its side and re-sort
that side, and bump the counter.  Returns the new order and the pre-match
state. -/
def insertOrder (ex : ExchangeSimulator) (isBuy : Bool) (price quantity : Int) :
    Order × ExchangeSimulator :=
  let order : Order := ⟨ex.orderIdCounter, isBuy, price, quantity⟩
  if isBuy then
    (order, ⟨sortOrders bidLe (ex.buyOrders ++ [order]), ex.sellOrders,
      ex.orderIdCounter + 1⟩)
  else
    (order, ⟨ex.buyOrders, sortOrders askLe (ex.sellOrders ++ [order]),
      ex.orderIdCounter + 1⟩)

/-- `ExchangeSimulator::placeOrder`: insert, run the matching pass, return
the assigned id, the trades emitted during this call, and the new state. -/
def placeOrder (ex : ExchangeSimulator) (isBuy : Bool) (price quantity : Int) :
    Int × List Trade × ExchangeSimulator :=
  let p := insertOrder ex isBuy price quantity
  let m := matchOrders p.2.buyOrders p.2.sellOrders
  (p.1.id, m.1, ⟨m.2.1, m.2.2, p.2.orderIdCounter⟩)

/-- The freshly constructed simulator: `orderIdCounter(0)`, empty books. -/
def initExchange : ExchangeSimulator := ⟨[], [], 0⟩

/-- A submission request: side, price, quantity. -/
structure Submission where
  isBuy : Bool
  price : Int
  quantity : Int
deriving DecidableEq, Repr

/-- A submission is valid when price and quantity are strictly positive. -/
def Submission.valid (s : Submission) : Prop := 0 < s.price ∧ 0 < s.quantity

instance (s : Submission) : Decidable s.valid := by
  unfold Submission.valid; infer_instance

/-- Run a sequence of `placeOrder` calls, returning the final state. -/
def runSubmissions (ex : ExchangeSimulator) : List Submission → ExchangeSimulator
  | [] => ex
  | s :: rest => runSubmissions (placeOrder ex s.isBuy s.price s.quantity).2.2 rest

/-- The ids returned by a sequence of `placeOrder` calls, in call order. -/
def runIds (ex : ExchangeSimulator) : List Submission → List Int
  | [] => []
  | s :: rest =>
    (placeOrder ex s.isBuy s.price s.quantity).1 ::
      runIds (placeOrder ex s.isBuy s.price s.quantity).2.2 rest

/-- The book does not cross: front bid price strictly below front ask price,
or a side is empty. -/
def nonCrossing : List Order → List Order → Bool
  | b :: _, s :: _ => decide (b.price < s.price)
  | _, _ => true

/-- Total resting quantity of a side. -/
def totalQuantity (l : List Order) : Int := (l.map Order.quantity).sum

/-- Total executed quantity of a list of trades. -/
def tradesQuantity (l : List Trade) : Int := (l.map Trade.quantity).sum

/-- Bids are ordered by non-increasing price. -/
def bidsOrdered (l : List Order) : Prop := l.Pairwise (fun a b => b.price ≤ a.price)

/-- Asks are ordered by non-decreasing price. -/
def asksOrdered (l : List Order) : Prop := l.Pairwise (fun a b => a.price ≤ b.price)

instance (l : List Order) : Decidable (bidsOrdered l) := by
  unfold bidsOrdered; infer_instance

instance (l : List Order) : Decidable (asksOrdered l) := by
  unfold asksOrdered; infer_instance

/-- Option-valued matching loop that spends one unit of fuel per executed
trade and reports `none` if the fuel runs out before the loop exits; used to
state that matching terminates within a quantity-bounded number of
iterations. -/
def matchOrdersFuel : Nat → List Order → List Order →
    Option (List Trade × List Order × List Order)
  | _, [], sells => some ([], [], sells)
  | _, b :: bs, [] => some ([], b :: bs, [])
  | 0, b :: bs, s :: ss =>
    if b.price ≥ s.price then none else some ([], b :: bs, s :: ss)
  | fuel + 1, b :: bs, s :: ss =>
    if b.price ≥ s.price then
      let q := min b.quantity s.quantity
      let buys' := if b.quantity - q = 0 then bs
        else ⟨b.id, b.isBuy, b.price, b.quantity - q⟩ :: bs
      let sells' := if s.quantity - q = 0 then ss
        else ⟨s.id, s.isBuy, s.price, s.quantity - q⟩ :: ss
      (matchOrdersFuel fuel buys' sells').map (fun r => (⟨s.price, q⟩ :: r.1, r.2))
    else some ([], b :: bs, s :: ss)

/-! ### Loop equations for the matching pass -/

/-- The front buy order after one trade iteration: quantity decremented by
the executed quantity, erased when it reaches zero. -/
def bidsAfter (b : Order) (bs : List Order) (s : Order) : List Order :=
  if b.quantity - min b.quantity s.quantity = 0 then bs
  else ⟨b.id, b.isBuy, b.price, b.quantity - min b.quantity s.quantity⟩ :: bs

/-- The front sell order after one trade iteration: quantity decremented by
the executed quantity, erased when it reaches zero. -/
def asksAfter (b : Order) (s : Order) (ss : List Order) : List Order :=
  if s.quantity - min b.quantity s.quantity = 0 then ss
  else ⟨s.id, s.isBuy, s.price, s.quantity - min b.quantity s.quantity⟩ :: ss

theorem matchOrdersGo_nil_left (fuel : Nat) (sells : List Order) :
    matchOrdersGo fuel [] sells = ([], [], sells) := by
  cases fuel <;> cases sells <;> rfl

theorem matchOrdersGo_nil_right (fuel : Nat) (b : Order) (bs : List Order) :
    matchOrdersGo fuel (b :: bs) [] = ([], b :: bs, []) := by
  cases fuel <;> rfl

theorem matchOrdersGo_noCross (fuel : Nat) (b s : Order) (bs ss : List Order)
    (h : ¬ b.price ≥ s.price) :
    matchOrdersGo fuel (b :: bs) (s :: ss) = ([], b :: bs, s :: ss) := by
  cases fuel <;> simp only [matchOrdersGo, if_neg h]

theorem matchOrdersGo_cross (fuel : Nat) (b s : Order) (bs ss : List Order)
    (h : b.price ≥ s.price) :
    matchOrdersGo (fuel + 1) (b :: bs) (s :: ss) =
      (⟨s.price, min b.quantity s.quantity⟩ ::
          (matchOrdersGo fuel (bidsAfter b bs s) (asksAfter b s ss)).1,
        (matchOrdersGo fuel (bidsAfter b bs s) (asksAfter b s ss)).2) := by
  simp only [matchOrdersGo, if_pos h, bidsAfter, asksAfter]

/-- Every trade iteration erases at least one order: the executed quantity
equals the front buy or the front sell quantity, and that order is removed. -/
theorem after_length (b s : Order) (bs ss : List Order) :
    (bidsAfter b bs s).length + (asksAfter b s ss).length + 1 ≤
      (b :: bs).length + (s :: ss).length := by
  unfold bidsAfter asksAfter
  split <;> split <;> simp <;> omega

/-- Any fuel at least `buys.length + sells.length` yields the same result:
the loop exits before the bound is reached. -/
theorem matchOrdersGo_fuel_irrelevant (fuel₁ : Nat) :
    ∀ (fuel₂ : Nat) (buys sells : List Order),
      buys.length + sells.length ≤ fuel₁ → buys.length + sells.length ≤ fuel₂ →
      matchOrdersGo fuel₁ buys sells = matchOrdersGo fuel₂ buys sells := by
  induction fuel₁ with
  | zero =>
    intro fuel₂ buys sells h1 _
    match buys, sells with
    | [], ss => rw [matchOrdersGo_nil_left, matchOrdersGo_nil_left]
    | b :: bs, ss => simp at h1
  | succ f ih =>
    intro fuel₂ buys sells h1 h2
    match buys, sells with
    | [], ss => rw [matchOrdersGo_nil_left, matchOrdersGo_nil_left]
    | b :: bs, [] => rw [matchOrdersGo_nil_right, matchOrdersGo_nil_right]
    | b :: bs, s :: ss =>
      by_cases hc : b.price ≥ s.price
      · match fuel₂ with
        | 0 => simp at h2
        | g + 1 =>
          rw [matchOrdersGo_cross f b s bs ss hc, matchOrdersGo_cross g b s bs ss hc]
          have hlen := after_length b s bs ss
          rw [ih g (bidsAfter b bs s) (asksAfter b s ss)
            (by simp at h1 hlen ⊢; omega) (by simp at h2 hlen ⊢; omega)]
      · rw [matchOrdersGo_noCross fuel₂ b s bs ss hc, matchOrdersGo_noCross (f + 1) b s bs ss hc]

theorem matchOrders_nil_left (sells : List Order) :
    matchOrders [] sells = ([], [], sells) := by
  unfold matchOrders; exact matchOrdersGo_nil_left _ sells

theorem matchOrders_nil_right (b : Order) (bs : List Order) :
    matchOrders (b :: bs) [] = ([], b :: bs, []) := by
  unfold matchOrders; exact matchOrdersGo_nil_right _ b bs

theorem matchOrders_noCross (b s : Order) (bs ss : List Order) (h : ¬ b.price ≥ s.price) :
    matchOrders (b :: bs) (s :: ss) = ([], b :: bs, s :: ss) := by
  unfold matchOrders; exact matchOrdersGo_noCross _ b s bs ss h

theorem matchOrders_cross (b s : Order) (bs ss : List Order) (h : b.price ≥ s.price) :
    matchOrders (b :: bs) (s :: ss) =
      (⟨s.price, min b.quantity s.quantity⟩ ::
          (matchOrders (bidsAfter b bs s) (asksAfter b s ss)).1,
        (matchOrders (bidsAfter b bs s) (asksAfter b s ss)).2) := by
  have hstep : matchOrdersGo ((b :: bs).length + (s :: ss).length) (b :: bs) (s :: ss) =
      (⟨s.price, min b.quantity s.quantity⟩ ::
          (matchOrdersGo ((b :: bs).length + (s :: ss).length - 1)
            (bidsAfter b bs s) (asksAfter b s ss)).1,
        (matchOrdersGo ((b :: bs).length + (s :: ss).length - 1)
          (bidsAfter b bs s) (asksAfter b s ss)).2) := by
    have : (b :: bs).length + (s :: ss).length = (bs.length + ss.length + 1) + 1 := by
      simp; omega
    rw [this]
    exact matchOrdersGo_cross _ b s bs ss h
  unfold matchOrders
  rw [hstep]
  have hlen := after_length b s bs ss
  rw [matchOrdersGo_fuel_irrelevant _ _ (bidsAfter b bs s) (asksAfter b s ss)
    (by simp at hlen ⊢; omega) (le_refl _)]

/-- Induction principle following the recursion structure of the matching
loop: to prove `P buys sells (matchOrders buys sells)`, handle the two
empty-side exits, the non-crossing exit, and the trade iteration. -/
theorem matchOrders_rec (P : List Order → List Order → List Trade × List Order × List Order → Prop)
    (hnb : ∀ sells, P [] sells ([], [], sells))
    (hns : ∀ b bs, P (b :: bs) [] ([], b :: bs, []))
    (hnc : ∀ b bs s ss, ¬ b.price ≥ s.price → P (b :: bs) (s :: ss) ([], b :: bs, s :: ss))
    (hc : ∀ b bs s ss, b.price ≥ s.price →
      P (bidsAfter b bs s) (asksAfter b s ss)
        (matchOrders (bidsAfter b bs s) (asksAfter b s ss)) →
      P (b :: bs) (s :: ss)
        (⟨s.price, min b.quantity s.quantity⟩ ::
            (matchOrders (bidsAfter b bs s) (asksAfter b s ss)).1,
          (matchOrders (bidsAfter b bs s) (asksAfter b s ss)).2)) :
    ∀ buys sells, P buys sells (matchOrders buys sells) := by
  have key : ∀ (n : Nat) (buys sells : List Order), buys.length + sells.length ≤ n →
      P buys sells (matchOrders buys sells) := by
    intro n
    induction n with
    | zero =>
      intro buys sells h1
      match buys, sells with
      | [], ss => rw [matchOrders_nil_left]; exact hnb ss
      | b :: bs, ss => simp at h1
    | succ n ih =>
      intro buys sells h1
      match buys, sells with
      | [], ss => rw [matchOrders_nil_left]; exact hnb ss
      | b :: bs, [] => rw [matchOrders_nil_right]; exact hns b bs
      | b :: bs, s :: ss =>
        by_cases hcr : b.price ≥ s.price
        · rw [matchOrders_cross b s bs ss hcr]
          have hlen := after_length b s bs ss
          exact hc b bs s ss hcr
            (ih (bidsAfter b bs s) (asksAfter b s ss) (by simp at h1 hlen ⊢; omega))
        · rw [matchOrders_noCross b s bs ss hcr]; exact hnc b bs s ss hcr
  intro buys sells
  exact key (buys.length + sells.length) buys sells (le_refl _)

/-! ### Sorting lemmas -/

theorem mem_insertSorted (le : Order → Order → Bool) (o a : Order) (l : List Order) :
    a ∈ insertSorted le o l ↔ a = o ∨ a ∈ l := by
  induction l with
  | nil => simp [insertSorted]
  | cons x xs ih =>
    simp only [insertSorted]
    split
    · simp [List.mem_cons]
    · simp only [List.mem_cons, ih]
      tauto

theorem pairwise_insertSorted (le : Order → Order → Bool)
    (htrans : ∀ a b c, le a b = true → le b c = true → le a c = true)
    (htot : ∀ a b, le a b = false → le b a = true)
    (o : Order) (l : List Order) (hl : l.Pairwise (fun a b => le a b = true)) :
    (insertSorted le o l).Pairwise (fun a b => le a b = true) := by
  induction l with
  | nil => simp [insertSorted]
  | cons x xs ih =>
    rcases List.pairwise_cons.mp hl with ⟨hx, hxs⟩
    simp only [insertSorted]
    split
    · rename_i hle
      refine List.pairwise_cons.mpr ⟨?_, hl⟩
      intro y hy
      rcases List.mem_cons.mp hy with rfl | hy
      · exact hle
      · exact htrans o x y hle (hx y hy)
    · rename_i hle
      refine List.pairwise_cons.mpr ⟨?_, ih hxs⟩
      intro y hy
      rcases (mem_insertSorted le o y xs).mp hy with rfl | hy
      · exact htot y x (by simpa using hle)
      · exact hx y hy

theorem pairwise_sortOrders (le : Order → Order → Bool)
    (htrans : ∀ a b c, le a b = true → le b c = true → le a c = true)
    (htot : ∀ a b, le a b = false → le b a = true)
    (l : List Order) :
    (sortOrders le l).Pairwise (fun a b => le a b = true) := by
  induction l with
  | nil => simp [sortOrders]
  | cons x xs ih => exact pairwise_insertSorted le htrans htot x _ ih

theorem bidsOrdered_sortOrders (l : List Order) : bidsOrdered (sortOrders bidLe l) := by
  have h := pairwise_sortOrders bidLe
    (fun a b c hab hbc => by simp [bidLe] at *; omega)
    (fun a b hab => by simp [bidLe] at *; omega) l
  exact h.imp (fun hab => by simpa [bidLe] using hab)

theorem asksOrdered_sortOrders (l : List Order) : asksOrdered (sortOrders askLe l) := by
  have h := pairwise_sortOrders askLe
    (fun a b c hab hbc => by simp [askLe] at *; omega)
    (fun a b hab => by simp [askLe] at *; omega) l
  exact h.imp (fun hab => by simpa [askLe] using hab)

/-! ### Properties of the matching pass -/

theorem matchOrders_nonCrossing (buys sells : List Order) :
    nonCrossing (matchOrders buys sells).2.1 (matchOrders buys sells).2.2 = true := by
  refine matchOrders_rec (fun _ _ r => nonCrossing r.2.1 r.2.2 = true) ?_ ?_ ?_ ?_ buys sells
  · intro ss; cases ss <;> rfl
  · intro b bs; rfl
  · intro b bs s ss h
    simp only [nonCrossing, decide_eq_true_eq]
    omega
  · intro b bs s ss h ih; exact ih

theorem matchOrders_conservation (buys sells : List Order) :
    totalQuantity buys =
      totalQuantity (matchOrders buys sells).2.1 + tradesQuantity (matchOrders buys sells).1 ∧
    totalQuantity sells =
      totalQuantity (matchOrders buys sells).2.2 + tradesQuantity (matchOrders buys sells).1 := by
  refine matchOrders_rec (fun buys sells r =>
    totalQuantity buys = totalQuantity r.2.1 + tradesQuantity r.1 ∧
    totalQuantity sells = totalQuantity r.2.2 + tradesQuantity r.1) ?_ ?_ ?_ ?_ buys sells
  · intro ss; simp [totalQuantity, tradesQuantity]
  · intro b bs; simp [totalQuantity, tradesQuantity]
  · intro b bs s ss h; simp [tradesQuantity]
  · intro b bs s ss h ih
    obtain ⟨ih1, ih2⟩ := ih
    have hb : totalQuantity (bidsAfter b bs s) =
        totalQuantity bs + (b.quantity - min b.quantity s.quantity) := by
      unfold bidsAfter; split <;> simp [totalQuantity] <;> omega
    have hs : totalQuantity (asksAfter b s ss) =
        totalQuantity ss + (s.quantity - min b.quantity s.quantity) := by
      unfold asksAfter; split <;> simp [totalQuantity] <;> omega
    have e1 : totalQuantity (b :: bs) = b.quantity + totalQuantity bs := by
      simp [totalQuantity]
    have e2 : totalQuantity (s :: ss) = s.quantity + totalQuantity ss := by
      simp [totalQuantity]
    have e3 : tradesQuantity (⟨s.price, min b.quantity s.quantity⟩ ::
        (matchOrders (bidsAfter b bs s) (asksAfter b s ss)).1) =
        min b.quantity s.quantity +
          tradesQuantity (matchOrders (bidsAfter b bs s) (asksAfter b s ss)).1 := by
      simp [tradesQuantity]
    constructor
    · simp only [e1, e3]; omega
    · simp only [e2, e3]; omega

theorem matchOrders_preserves_ordered (buys sells : List Order) :
    (bidsOrdered buys → bidsOrdered (matchOrders buys sells).2.1) ∧
    (asksOrdered sells → asksOrdered (matchOrders buys sells).2.2) := by
  refine matchOrders_rec (fun buys sells r =>
    (bidsOrdered buys → bidsOrdered r.2.1) ∧
    (asksOrdered sells → asksOrdered r.2.2)) ?_ ?_ ?_ ?_ buys sells
  · intro ss; exact ⟨fun _ => List.Pairwise.nil, id⟩
  · intro b bs; exact ⟨id, fun _ => List.Pairwise.nil⟩
  · intro b bs s ss h; exact ⟨id, id⟩
  · intro b bs s ss h ih
    constructor
    · intro hb
      apply ih.1
      unfold bidsAfter bidsOrdered at *
      split
      · exact hb.of_cons
      · rcases List.pairwise_cons.mp hb with ⟨hx, hxs⟩
        exact List.pairwise_cons.mpr ⟨fun y hy => hx y hy, hxs⟩
    · intro hs
      apply ih.2
      unfold asksAfter asksOrdered at *
      split
      · exact hs.of_cons
      · rcases List.pairwise_cons.mp hs with ⟨hx, hxs⟩
        exact List.pairwise_cons.mpr ⟨fun y hy => hx y hy, hxs⟩

theorem matchOrders_of_nonCrossing (buys sells : List Order)
    (h : nonCrossing buys sells = true) :
    matchOrders buys sells = ([], buys, sells) := by
  match buys, sells with
  | [], ss => exact matchOrders_nil_left ss
  | b :: bs, [] => exact matchOrders_nil_right b bs
  | b :: bs, s :: ss =>
    have hlt : b.price < s.price := by simpa [nonCrossing] using h
    exact matchOrders_noCross b s bs ss (by omega)

/-! ### Properties of order placement -/

theorem placeOrder_returns_counter (ex : ExchangeSimulator) (isBuy : Bool) (p q : Int) :
    (placeOrder ex isBuy p q).1 = ex.orderIdCounter := by
  unfold placeOrder insertOrder; cases isBuy <;> rfl

theorem placeOrder_counter (ex : ExchangeSimulator) (isBuy : Bool) (p q : Int) :
    (placeOrder ex isBuy p q).2.2.orderIdCounter = ex.orderIdCounter + 1 := by
  unfold placeOrder insertOrder; cases isBuy <;> rfl

theorem placeOrder_books (ex : ExchangeSimulator) (isBuy : Bool) (p q : Int) :
    (placeOrder ex isBuy p q).2.2.buyOrders =
      (matchOrders (insertOrder ex isBuy p q).2.buyOrders
        (insertOrder ex isBuy p q).2.sellOrders).2.1 ∧
    (placeOrder ex isBuy p q).2.2.sellOrders =
      (matchOrders (insertOrder ex isBuy p q).2.buyOrders
        (insertOrder ex isBuy p q).2.sellOrders).2.2 ∧
    (placeOrder ex isBuy p q).2.1 =
      (matchOrders (insertOrder ex isBuy p q).2.buyOrders
        (insertOrder ex isBuy p q).2.sellOrders).1 :=
  ⟨rfl, rfl, rfl⟩

theorem insertOrder_asks_of_buy (ex : ExchangeSimulator) (p q : Int) :
    (insertOrder ex true p q).2.sellOrders = ex.sellOrders := rfl

theorem insertOrder_bids_of_sell (ex : ExchangeSimulator) (p q : Int) :
    (insertOrder ex false p q).2.buyOrders = ex.buyOrders := rfl

theorem placeOrder_nonCrossing (ex : ExchangeSimulator) (isBuy : Bool) (p q : Int) :
    nonCrossing (placeOrder ex isBuy p q).2.2.buyOrders
      (placeOrder ex isBuy p q).2.2.sellOrders = true :=
  matchOrders_nonCrossing (insertOrder ex isBuy p q).2.buyOrders
    (insertOrder ex isBuy p q).2.sellOrders

theorem runSubmissions_nonCrossing (subs : List Submission) :
    ∀ ex : ExchangeSimulator, nonCrossing ex.buyOrders ex.sellOrders = true →
      nonCrossing (runSubmissions ex subs).buyOrders (runSubmissions ex subs).sellOrders = true := by
  induction subs with
  | nil => intro ex h; exact h
  | cons s rest ih =>
    intro ex _
    exact ih _ (placeOrder_nonCrossing ex s.isBuy s.price s.quantity)

theorem insertOrder_ordered (ex : ExchangeSimulator) (isBuy : Bool) (p q : Int)
    (hb : bidsOrdered ex.buyOrders) (hs : asksOrdered ex.sellOrders) :
    bidsOrdered (insertOrder ex isBuy p q).2.buyOrders ∧
    asksOrdered (insertOrder ex isBuy p q).2.sellOrders := by
  cases isBuy
  · exact ⟨hb, asksOrdered_sortOrders _⟩
  · exact ⟨bidsOrdered_sortOrders _, hs⟩

theorem placeOrder_ordered (ex : ExchangeSimulator) (isBuy : Bool) (p q : Int)
    (hb : bidsOrdered ex.buyOrders) (hs : asksOrdered ex.sellOrders) :
    bidsOrdered (placeOrder ex isBuy p q).2.2.buyOrders ∧
    asksOrdered (placeOrder ex isBuy p q).2.2.sellOrders := by
  obtain ⟨h1, h2⟩ := insertOrder_ordered ex isBuy p q hb hs
  have hm := matchOrders_preserves_ordered (insertOrder ex isBuy p q).2.buyOrders
    (insertOrder ex isBuy p q).2.sellOrders
  exact ⟨hm.1 h1, hm.2 h2⟩

theorem runSubmissions_ordered (subs : List Submission) :
    ∀ ex : ExchangeSimulator, bidsOrdered ex.buyOrders → asksOrdered ex.sellOrders →
      bidsOrdered (runSubmissions ex subs).buyOrders ∧
      asksOrdered (runSubmissions ex subs).sellOrders := by
  induction subs with
  | nil => intro ex hb hs; exact ⟨hb, hs⟩
  | cons s rest ih =>
    intro ex hb hs
    obtain ⟨hb', hs'⟩ := placeOrder_ordered ex s.isBuy s.price s.quantity hb hs
    exact ih _ hb' hs'

theorem runIds_lower (subs : List Submission) :
    ∀ (ex : ExchangeSimulator) (x : Int), x ∈ runIds ex subs → ex.orderIdCounter ≤ x := by
  induction subs with
  | nil => intro ex x h; simp [runIds] at h
  | cons s rest ih =>
    intro ex x h
    simp only [runIds, List.mem_cons] at h
    rcases h with rfl | h
    · rw [placeOrder_returns_counter]
    · have hx := ih _ x h
      rw [placeOrder_counter] at hx
      omega

/-! ### Claim theorems -/

/-- Claim C1: after every `placeOrder` call in any sequence of valid
submissions starting from the fresh simulator, the book is non-crossing:
the front bid price is strictly below the front ask price, or at least one
side is empty.  (Stated over all submission sequences; every intermediate
"after a call" state is the final state of a prefix, itself a valid
sequence.) -/
theorem submit_nonCrossing (subs : List Submission) (hv : ∀ s ∈ subs, s.valid) :
    nonCrossing (runSubmissions initExchange subs).buyOrders
      (runSubmissions initExchange subs).sellOrders = true :=
  runSubmissions_nonCrossing subs initExchange rfl

/-- Witness for C1 at a concrete valid two-submission sequence. -/
theorem submit_nonCrossing_witness :
    (∀ s ∈ ([⟨true, 100, 100⟩, ⟨false, 100, 75⟩] : List Submission), s.valid) ∧
    nonCrossing
      (runSubmissions initExchange ([⟨true, 100, 100⟩, ⟨false, 100, 75⟩] : List Submission)).buyOrders
      (runSubmissions initExchange ([⟨true, 100, 100⟩, ⟨false, 100, 75⟩] : List Submission)).sellOrders
      = true :=
  ⟨by decide, submit_nonCrossing _ (by decide)⟩

/-- Claim C5: after every `placeOrder` call in any sequence of valid
submissions starting from the fresh simulator, the bid book is ordered by
non-increasing price and the ask book by non-decreasing price. -/
theorem submit_booksOrdered (subs : List Submission) (hv : ∀ s ∈ subs, s.valid) :
    bidsOrdered (runSubmissions initExchange subs).buyOrders ∧
    asksOrdered (runSubmissions initExchange subs).sellOrders :=
  runSubmissions_ordered subs initExchange List.Pairwise.nil List.Pairwise.nil

/-- Witness for C5 at a concrete valid three-submission sequence. -/
theorem submit_booksOrdered_witness :
    (∀ s ∈ ([⟨true, 100, 100⟩, ⟨true, 99, 50⟩, ⟨false, 101, 25⟩] : List Submission), s.valid) ∧
    (bidsOrdered (runSubmissions initExchange
        ([⟨true, 100, 100⟩, ⟨true, 99, 50⟩, ⟨false, 101, 25⟩] : List Submission)).buyOrders ∧
      asksOrdered (runSubmissions initExchange
        ([⟨true, 100, 100⟩, ⟨true, 99, 50⟩, ⟨false, 101, 25⟩] : List Submission)).sellOrders) :=
  ⟨by decide, submit_booksOrdered _ (by decide)⟩

/-- Claim C8: the ids returned by any sequence of `placeOrder` calls, from
any simulator state, are pairwise strictly increasing in call order; in
particular they are unique and no id is ever assigned twice. -/
theorem order_ids_strictly_increasing (ex : ExchangeSimulator) (subs : List Submission) :
    (runIds ex subs).Pairwise (· < ·) := by
  induction subs generalizing ex with
  | nil => simp [runIds]
  | cons s rest ih =>
    simp only [runIds]
    refine List.pairwise_cons.mpr ⟨?_, ih _⟩
    intro x hx
    have h1 := runIds_lower rest _ x hx
    rw [placeOrder_counter] at h1
    rw [placeOrder_returns_counter]
    omega

/-- Claim C2: whenever the fronts cross, the emitted trade carries the front
ask's price and the quantity `min(front bid quantity, front ask quantity)`
(independently of which side was the incoming order, which the matching
pass cannot even observe), and the loop continues on the books in which
both front quantities have been decremented by exactly that quantity, each
front being erased when its quantity reaches zero. -/
theorem matchOrders_trade_spec (b s : Order) (bs ss : List Order)
    (h : b.price ≥ s.price) :
    (matchOrders (b :: bs) (s :: ss)).1.head? =
      some ⟨s.price, min b.quantity s.quantity⟩ ∧
    matchOrders (b :: bs) (s :: ss) =
      (⟨s.price, min b.quantity s.quantity⟩ ::
          (matchOrders (bidsAfter b bs s) (asksAfter b s ss)).1,
        (matchOrders (bidsAfter b bs s) (asksAfter b s ss)).2) := by
  refine ⟨?_, matchOrders_cross b s bs ss h⟩
  rw [matchOrders_cross b s bs ss h]
  rfl

/-- Witness for C2: the spec example Sell 10@50 resting, Buy 10@60 incoming
trades 10 units at price 50 and empties both books. -/
theorem matchOrders_trade_spec_witness :
    ((⟨1, true, 60, 10⟩ : Order).price ≥ (⟨0, false, 50, 10⟩ : Order).price) ∧
    (matchOrders [⟨1, true, 60, 10⟩] [⟨0, false, 50, 10⟩]).1.head? = some ⟨50, 10⟩ ∧
    matchOrders [⟨1, true, 60, 10⟩] [⟨0, false, 50, 10⟩] = ([⟨50, 10⟩], [], []) :=
  ⟨by decide,
    (matchOrders_trade_spec ⟨1, true, 60, 10⟩ ⟨0, false, 50, 10⟩ [] [] (by decide)).1,
    (matchOrders_trade_spec ⟨1, true, 60, 10⟩ ⟨0, false, 50, 10⟩ [] [] (by decide)).2⟩

/-- Claim C3: across one `placeOrder` call, the total quantity removed from
the bid side by matching equals the total executed quantity of the trades
emitted by that call, and likewise for the ask side; hence the quantity
removed from bids equals the quantity removed from asks. -/
theorem submit_quantity_conserved (ex : ExchangeSimulator) (isBuy : Bool) (p q : Int) :
    totalQuantity (insertOrder ex isBuy p q).2.buyOrders -
        totalQuantity (placeOrder ex isBuy p q).2.2.buyOrders =
      tradesQuantity (placeOrder ex isBuy p q).2.1 ∧
    totalQuantity (insertOrder ex isBuy p q).2.sellOrders -
        totalQuantity (placeOrder ex isBuy p q).2.2.sellOrders =
      tradesQuantity (placeOrder ex isBuy p q).2.1 := by
  obtain ⟨hb, hsx, ht⟩ := placeOrder_books ex isBuy p q
  rw [hb, hsx, ht]
  obtain ⟨h1, h2⟩ := matchOrders_conservation (insertOrder ex isBuy p q).2.buyOrders
    (insertOrder ex isBuy p q).2.sellOrders
  omega

/-- Counterexample to claim C4: `placeOrder` performs no validation, so
`submit(Buy, price=0, quantity=5)` on the fresh simulator is not rejected:
it mutates the book, leaving the zero-priced order resting on the bid side. -/
theorem invalid_order_accepted :
    (placeOrder initExchange true 0 5).2.2.buyOrders = [⟨0, true, 0, 5⟩] ∧
    (placeOrder initExchange true 0 5).2.2 ≠ initExchange := by decide

/-- Claim C4 (amended): `placeOrder` has no validation and no error path;
a submission with non-positive price or quantity is processed like any
other: it is assigned the next id and inserted into the book.  On the fresh
simulator a buy with any such price and quantity returns id 0, emits no
trade, and rests as the only bid. -/
theorem placeOrder_no_validation (p q : Int) (h : p ≤ 0 ∨ q ≤ 0) :
    placeOrder initExchange true p q = (0, [], ⟨[⟨0, true, p, q⟩], [], 1⟩) := rfl

/-- Witness for the amended C4 at `submit(Buy, price=0, quantity=5)`. -/
theorem placeOrder_no_validation_witness :
    ((0 : Int) ≤ 0 ∨ (5 : Int) ≤ 0) ∧
    placeOrder initExchange true 0 5 = (0, [], ⟨[⟨0, true, 0, 5⟩], [], 1⟩) :=
  ⟨Or.inl (le_refl 0), placeOrder_no_validation 0 5 (Or.inl (le_refl 0))⟩

theorem length_le_totalQuantity (l : List Order) (h : ∀ o ∈ l, 0 < o.quantity) :
    (l.length : Int) ≤ totalQuantity l := by
  induction l with
  | nil => simp [totalQuantity]
  | cons x xs ih =>
    have hx := h x (List.mem_cons_self x xs)
    have hxs := ih (fun o ho => h o (List.mem_cons_of_mem x ho))
    simp only [totalQuantity, List.map_cons, List.sum_cons, List.length_cons] at *
    push_cast
    omega

/-- Claim C7: when every resting order has strictly positive quantity, the
matching loop terminates within `totalQuantity buys + totalQuantity sells`
iterations (each trade strictly decreases the total resting quantity, which
is bounded below): the fuel-counted loop completes and agrees with
`matchOrders`. -/
theorem matchOrders_terminates (fuel : Nat) (buys sells : List Order)
    (hb : ∀ o ∈ buys, 0 < o.quantity) (hs : ∀ o ∈ sells, 0 < o.quantity)
    (hf : totalQuantity buys + totalQuantity sells ≤ (fuel : Int)) :
    matchOrdersFuel fuel buys sells = some (matchOrders buys sells) := by
  induction fuel generalizing buys sells with
  | zero =>
    match buys, sells with
    | [], ss => rw [matchOrders_nil_left]; rfl
    | b :: bs, [] => rw [matchOrders_nil_right]; rfl
    | b :: bs, s :: ss =>
      exfalso
      have h1 := length_le_totalQuantity (b :: bs) hb
      have h2 := length_le_totalQuantity (s :: ss) hs
      simp at h1 h2 hf
      omega
  | succ fuel ih =>
    match buys, sells with
    | [], ss => rw [matchOrders_nil_left]; rfl
    | b :: bs, [] => rw [matchOrders_nil_right]; rfl
    | b :: bs, s :: ss =>
      by_cases hc : b.price ≥ s.price
      · have hstep : matchOrdersFuel (fuel + 1) (b :: bs) (s :: ss) =
            (matchOrdersFuel fuel (bidsAfter b bs s) (asksAfter b s ss)).map
              (fun r => (⟨s.price, min b.quantity s.quantity⟩ :: r.1, r.2)) := by
          simp only [matchOrdersFuel, if_pos hc, bidsAfter, asksAfter]
        have hqb : 0 < b.quantity := hb b (List.mem_cons_self b bs)
        have hqs : 0 < s.quantity := hs s (List.mem_cons_self s ss)
        have hb' : ∀ o ∈ bidsAfter b bs s, 0 < o.quantity := by
          intro o ho
          unfold bidsAfter at ho
          split at ho
          · exact hb o (List.mem_cons_of_mem b ho)
          · rename_i hne
            rcases List.mem_cons.mp ho with rfl | ho
            · show 0 < b.quantity - min b.quantity s.quantity
              omega
            · exact hb o (List.mem_cons_of_mem b ho)
        have hs' : ∀ o ∈ asksAfter b s ss, 0 < o.quantity := by
          intro o ho
          unfold asksAfter at ho
          split at ho
          · exact hs o (List.mem_cons_of_mem s ho)
          · rename_i hne
            rcases List.mem_cons.mp ho with rfl | ho
            · show 0 < s.quantity - min b.quantity s.quantity
              omega
            · exact hs o (List.mem_cons_of_mem s ho)
        have e1 : totalQuantity (bidsAfter b bs s) =
            totalQuantity bs + (b.quantity - min b.quantity s.quantity) := by
          unfold bidsAfter; split <;> simp [totalQuantity] <;> omega
        have e2 : totalQuantity (asksAfter b s ss) =
            totalQuantity ss + (s.quantity - min b.quantity s.quantity) := by
          unfold asksAfter; split <;> simp [totalQuantity] <;> omega
        have e3 : totalQuantity (b :: bs) = b.quantity + totalQuantity bs := by
          simp [totalQuantity]
        have e4 : totalQuantity (s :: ss) = s.quantity + totalQuantity ss := by
          simp [totalQuantity]
        have hfb : totalQuantity (bidsAfter b bs s) + totalQuantity (asksAfter b s ss) ≤
            (fuel : Int) := by
          rw [e3, e4] at hf
          push_cast at hf
          omega
        rw [hstep, matchOrders_cross b s bs ss hc,
          ih (bidsAfter b bs s) (asksAfter b s ss) hb' hs' hfb]
        rfl
      · have h1 : matchOrdersFuel (fuel + 1) (b :: bs) (s :: ss) =
            some ([], b :: bs, s :: ss) := by
          simp only [matchOrdersFuel, if_neg hc]
        rw [h1, matchOrders_noCross b s bs ss hc]

/-- Witness for C7 at a concrete positive-quantity crossing book. -/
theorem matchOrders_terminates_witness :
    (∀ o ∈ ([⟨0, true, 100, 2⟩] : List Order), 0 < o.quantity) ∧
    (∀ o ∈ ([⟨1, false, 90, 3⟩] : List Order), 0 < o.quantity) ∧
    totalQuantity [⟨0, true, 100, 2⟩] + totalQuantity [⟨1, false, 90, 3⟩] ≤ ((5 : Nat) : Int) ∧
    matchOrdersFuel 5 [⟨0, true, 100, 2⟩] [⟨1, false, 90, 3⟩] =
      some (matchOrders [⟨0, true, 100, 2⟩] [⟨1, false, 90, 3⟩]) :=
  ⟨by decide, by decide, by decide,
    matchOrders_terminates 5 [⟨0, true, 100, 2⟩] [⟨1, false, 90, 3⟩]
      (by decide) (by decide) (by decide)⟩

/-- Claim C9: on the fresh simulator, the sequence Buy 100@100, Buy 50@99,
Sell 75@100, Sell 25@101 emits no trade on the first two calls, exactly the
one trade 75@100 on the third, after which the bid book is
[Buy 25@100 (id 0), Buy 50@99 (id 1)] and the ask book is empty; the fourth
call emits no trade and rests as the only ask, leaving the bids unchanged. -/
theorem demo_sequence_trace :
    (let r1 := placeOrder initExchange true 100 100
     let r2 := placeOrder r1.2.2 true 99 50
     let r3 := placeOrder r2.2.2 false 100 75
     let r4 := placeOrder r3.2.2 false 101 25
     r1.2.1 = [] ∧ r2.2.1 = [] ∧
     r3.2.1 = [⟨100, 75⟩] ∧
     r3.2.2.buyOrders = [⟨0, true, 100, 25⟩, ⟨1, true, 99, 50⟩] ∧
     r3.2.2.sellOrders = [] ∧
     r4.2.1 = [] ∧
     r4.2.2.buyOrders = [⟨0, true, 100, 25⟩, ⟨1, true, 99, 50⟩] ∧
     r4.2.2.sellOrders = [⟨3, false, 101, 25⟩]) := by decide

/-- Claim C10: if the book is non-crossing immediately after the insertion
step of a `placeOrder` call, the matching pass does nothing: the call emits
no trades, both books equal the just-inserted books, and in particular the
side opposite the incoming order is exactly what it was before the call. -/
theorem submit_noCross_frame (ex : ExchangeSimulator) (isBuy : Bool) (p q : Int)
    (h : nonCrossing (insertOrder ex isBuy p q).2.buyOrders
      (insertOrder ex isBuy p q).2.sellOrders = true) :
    (placeOrder ex isBuy p q).2.1 = [] ∧
    (placeOrder ex isBuy p q).2.2.buyOrders = (insertOrder ex isBuy p q).2.buyOrders ∧
    (placeOrder ex isBuy p q).2.2.sellOrders = (insertOrder ex isBuy p q).2.sellOrders ∧
    (isBuy = true → (placeOrder ex isBuy p q).2.2.sellOrders = ex.sellOrders) ∧
    (isBuy = false → (placeOrder ex isBuy p q).2.2.buyOrders = ex.buyOrders) := by
  have hm := matchOrders_of_nonCrossing _ _ h
  obtain ⟨hb, hsx, ht⟩ := placeOrder_books ex isBuy p q
  rw [hb, hsx, ht, hm]
  refine ⟨rfl, rfl, rfl, ?_, ?_⟩
  · intro hi; subst hi; rfl
  · intro hi; subst hi; rfl

/-- Witness for C10: a buy resting alone on an empty book does not cross,
so the call emits nothing and the ask side stays empty. -/
theorem submit_noCross_frame_witness :
    nonCrossing (insertOrder initExchange true 10 5).2.buyOrders
      (insertOrder initExchange true 10 5).2.sellOrders = true ∧
    ((placeOrder initExchange true 10 5).2.1 = [] ∧
      (placeOrder initExchange true 10 5).2.2.buyOrders =
        (insertOrder initExchange true 10 5).2.buyOrders ∧
      (placeOrder initExchange true 10 5).2.2.sellOrders =
        (insertOrder initExchange true 10 5).2.sellOrders ∧
      (true = true → (placeOrder initExchange true 10 5).2.2.sellOrders =
        initExchange.sellOrders) ∧
      (true = false → (placeOrder initExchange true 10 5).2.2.buyOrders =
        initExchange.buyOrders)) :=
  ⟨by decide, submit_noCross_frame initExchange true 10 5 (by decide)⟩
